import Mathlib

/-!
Shallow embedding of the better-ccflare log-ingestion engine
(`packages/claude-logs`: parser, scanner, service; database repository;
path resolver) together with theorems checking the specification's claims.

Conventions of the embedding:
* JS strings are Lean `String`s; a missing (`undefined`) string field of a
  JSON record is modelled as `""` (both are falsy under `!x`) or as
  `Option String` where the code distinguishes `null`.
* JS numbers holding epoch milliseconds, sizes and token counts are `Int`;
  the dollar amount `costUsd` is `Rat` (its exact value is only stored and
  compared, never rounded, in the code under verification).
* `new Date(s).getTime()` is an environment function and is passed in as an
  oracle `dateParse : String → Option Int` (`none` models `NaN`).
* A line of a JSONL blob is modelled post-`split("\n")` by `JLine`, which
  records the only aspects `parseLine` can observe: blank after trim,
  `JSON.parse` failure (with the thrown message), or a parsed record.
* Filesystem reads (`stat`, `readFile`, `existsSync`) are oracles given as
  explicit parameters; directory discovery is a function from a projects
  directory to the discovered `.jsonl` files.
-/

namespace BetterCcflare

/-- The `usage` object of a raw record (`types.ts`): four optional counters. -/
structure Usage where
  input_tokens : Option Int := none
  output_tokens : Option Int := none
  cache_creation_input_tokens : Option Int := none
  cache_read_input_tokens : Option Int := none
deriving DecidableEq, Repr

/-- The `message` object of a raw record (`types.ts`). -/
structure Message where
  role : Option String := none
  model : Option String := none
  usage : Option Usage := none
deriving DecidableEq, Repr

/-- Raw JSONL record (`RawLogEntry` of `types.ts`); a missing `uuid`,
`sessionId` or `timestamp` is modelled by `""` (falsy, like `undefined`). -/
structure RawLogEntry where
  uuid : String := ""
  sessionId : String := ""
  timestamp : String := ""
  message : Option Message := none
  costUSD : Option Rat := none
  gitBranch : Option String := none
  cwd : Option String := none
deriving DecidableEq, Repr

/-- One line of a JSONL blob, as observed by `parseLine`: whitespace-only,
not valid JSON (`JSON.parse` throws the given message), or a JSON record. -/
inductive JLine where
  | blank : JLine
  | badJson (msg : String) : JLine
  | json (raw : RawLogEntry) : JLine
deriving DecidableEq, Repr

/-- Structure `ScanError` of `types.ts`. -/
structure ScanError where
  filePath : String
  line : Option Nat
  error : String
deriving DecidableEq, Repr

/-- Structure `ParsedLogEntry` of `types.ts` (same shape as the repository's row). -/
structure ParsedLogEntry where
  uuid : String
  sessionId : String
  projectPath : String
  timestamp : Int
  role : String
  model : Option String
  inputTokens : Int
  outputTokens : Int
  cacheCreationInputTokens : Int
  cacheReadInputTokens : Int
  totalTokens : Int
  costUsd : Rat
  gitBranch : Option String
  cwd : Option String
  filePath : String
  fileModifiedAt : Int
deriving DecidableEq, Repr

/-- JS `o || d` for an optional string field (`""` is falsy). -/
def jsStrOr (o : Option String) (d : String) : String :=
  match o with
  | some s => if s = "" then d else s
  | none => d

/-- JS `o || null` for an optional string field (`""` is falsy). -/
def jsStrOrNull (o : Option String) : Option String :=
  match o with
  | some s => if s = "" then none else some s
  | none => none

/-- Function `parseLine` of `parser.ts` (lines 13–97): blank lines yield
`(null, null)`; bad JSON, missing `uuid`/`sessionId`/`timestamp`, or an
unparseable timestamp yield `(null, ScanError)`; otherwise the normalized
entry is built, with token fields defaulted to 0 and `totalTokens` computed
as their sum. -/
def parseLine (dateParse : String → Option Int) (line : JLine)
    (filePath projectPath : String) (fileModifiedAt : Int)
    (lineNumber : Option Nat) :
    Option ParsedLogEntry × Option ScanError :=
  match line with
  | .blank => (none, none)
  | .badJson msg =>
      (none, some ⟨filePath, lineNumber, "JSON parse error: " ++ msg⟩)
  | .json raw =>
      if raw.uuid = "" ∨ raw.sessionId = "" ∨ raw.timestamp = "" then
        (none, some ⟨filePath, lineNumber,
          "Missing required fields (uuid, sessionId, or timestamp)"⟩)
      else
        match dateParse raw.timestamp with
        | none =>
            (none, some ⟨filePath, lineNumber,
              "Invalid timestamp: " ++ raw.timestamp⟩)
        | some timestamp =>
            let usage := (raw.message.bind Message.usage).getD {}
            let inputTokens := usage.input_tokens.getD 0
            let outputTokens := usage.output_tokens.getD 0
            let cacheCreationInputTokens :=
              usage.cache_creation_input_tokens.getD 0
            let cacheReadInputTokens := usage.cache_read_input_tokens.getD 0
            let totalTokens :=
              inputTokens + outputTokens + cacheCreationInputTokens +
                cacheReadInputTokens
            (some {
              uuid := raw.uuid
              sessionId := raw.sessionId
              projectPath := projectPath
              timestamp := timestamp
              role := jsStrOr (raw.message.bind Message.role) "unknown"
              model := jsStrOrNull (raw.message.bind Message.model)
              inputTokens := inputTokens
              outputTokens := outputTokens
              cacheCreationInputTokens := cacheCreationInputTokens
              cacheReadInputTokens := cacheReadInputTokens
              totalTokens := totalTokens
              costUsd := raw.costUSD.getD 0
              gitBranch := jsStrOrNull raw.gitBranch
              cwd := jsStrOrNull raw.cwd
              filePath := filePath
              fileModifiedAt := fileModifiedAt }, none)

/-- The `for` loop shared by both batch parse functions of `parser.ts`:
process `lines` where the first element has 0-based index `i`, passing the
1-based line number `i + 1` to `parseLine` and accumulating entries and
errors in order. -/
def parseLoop (dateParse : String → Option Int)
    (filePath projectPath : String) (fileModifiedAt : Int) :
    List JLine → Nat → List ParsedLogEntry × List ScanError
  | [], _ => ([], [])
  | l :: ls, i =>
      let r := parseLine dateParse l filePath projectPath fileModifiedAt
        (some (i + 1))
      let rest := parseLoop dateParse filePath projectPath fileModifiedAt
        ls (i + 1)
      ((match r.1 with | some e => e :: rest.1 | none => rest.1),
       (match r.2 with | some er => er :: rest.2 | none => rest.2))

/-- Return type of `parseJSONLContent`: entries and errors only — the
source returns `{ entries, errors }` without a line count. -/
structure ParseContentResult where
  entries : List ParsedLogEntry
  errors : List ScanError
deriving DecidableEq, Repr

/-- Return type of `parseJSONLContentFromLine`: entries, errors and the
content's total line count. -/
structure ParseFromLineResult where
  entries : List ParsedLogEntry
  errors : List ScanError
  lineCount : Nat
deriving DecidableEq, Repr

/-- Function `parseJSONLContent` of `parser.ts` (lines 108–137): parse every line of
the (already split) content, from index 0. -/
def parseJSONLContent (dateParse : String → Option Int)
    (content : List JLine) (filePath projectPath : String)
    (fileModifiedAt : Int) : ParseContentResult :=
  let r := parseLoop dateParse filePath projectPath fileModifiedAt content 0
  { entries := r.1, errors := r.2 }

/-- Function `parseJSONLContentFromLine` of `parser.ts` (lines 149–180): parse from
0-based `startLine` on, also reporting `lineCount = lines.length`. -/
def parseJSONLContentFromLine (dateParse : String → Option Int)
    (content : List JLine) (filePath projectPath : String)
    (fileModifiedAt : Int) (startLine : Nat) : ParseFromLineResult :=
  let r := parseLoop dateParse filePath projectPath fileModifiedAt
    (content.drop startLine) startLine
  { entries := r.1, errors := r.2, lineCount := content.length }

/-! ### Path resolver (`paths.ts`) -/

/-- Function `getProjectsDir` of `paths.ts`: `join(configDir, "projects")`. -/
def getProjectsDir (configDir : String) : String :=
  configDir ++ "/projects"

/-- The loop body of `extractProjectPath`: try each config dir in order. -/
def extractProjectPathGo (filePath : String) : List String → String
  | [] => "unknown"
  | configDir :: rest =>
      let projectsDir := getProjectsDir configDir
      if projectsDir.isPrefixOf filePath then
        let relativePath := filePath.drop (projectsDir.length + 1)
        let parts := relativePath.splitOn "/"
        if parts.length > 1 then String.intercalate "/" parts.dropLast
        else extractProjectPathGo filePath rest
      else extractProjectPathGo filePath rest

/-- Function `extractProjectPath` of `paths.ts`: the directory part of the file path
relative to the first matching `<configDir>/projects`, else `"unknown"`. -/
def extractProjectPath (filePath : String) (configDirs : List String) :
    String :=
  extractProjectPathGo filePath configDirs

/-- ASCII whitespace, for the model of JS `String.prototype.trim`. -/
def isJsWhitespace (c : Char) : Bool :=
  c = ' ' || c = '\t' || c = '\n' || c = '\r'

/-- JS `p.trim()` (kernel-reducible model over the character list). -/
def jsTrim (s : String) : String :=
  String.mk (((s.data.dropWhile isJsWhitespace).reverse.dropWhile
    isJsWhitespace).reverse)

/-- Accumulator-passing core of `jsSplit`. -/
def jsSplitAux (c : Char) : List Char → List Char → List String
  | [], acc => [String.mk acc.reverse]
  | x :: xs, acc =>
      if x = c then String.mk acc.reverse :: jsSplitAux c xs []
      else jsSplitAux c xs (x :: acc)

/-- JS `s.split(c)` for a single-character separator (kernel-reducible
model; like JS, `"".split(",") = [""]` and separators at the ends yield
empty segments). -/
def jsSplit (c : Char) (s : String) : List String :=
  jsSplitAux c s.data []

/-- Function `getClaudeConfigDirs` of `paths.ts`, with the environment variable
`CLAUDE_CONFIG_DIR` (`env`), `homedir()` (`home`) and `existsSync` (`ex`)
passed as oracles: collect the existing trimmed comma-separated override
paths in order, then append each of the two fallback locations when it
exists and is not already present. -/
def getClaudeConfigDirs (env : Option String) (home : String)
    (ex : String → Bool) : List String :=
  let dirs : List String :=
    match env with
    | some envDirs =>
        if envDirs = "" then []
        else ((jsSplit ',' envDirs).map jsTrim).filter
          (fun p => (!(p == "")) && ex p)
    | none => []
  let legacyPath := home ++ "/.claude"
  let dirs1 :=
    if ex legacyPath && !(dirs.contains legacyPath) then dirs ++ [legacyPath]
    else dirs
  let xdgPath := home ++ "/.config/claude"
  let dirs2 :=
    if ex xdgPath && !(dirs1.contains xdgPath) then dirs1 ++ [xdgPath]
    else dirs1
  dirs2

/-! ### Scanner (`scanner.ts`) -/

/-- Structure `ProcessedFile` of `types.ts`. -/
structure ProcessedFile where
  filePath : String
  lastModifiedAt : Int
  lastSize : Int
  lastLineCount : Nat
  processedAt : Int
deriving DecidableEq, Repr

/-- Result of `getFileMetadata` / `stat` (`scanner.ts` lines 476–488). -/
structure FileMetadata where
  modifiedAt : Int
  size : Int
deriving DecidableEq, Repr

/-- A discovered `.jsonl` file: its path, `stat` data and content
(post-`split("\n")`). The embedding models `stat`/`readFile` as
succeeding; the catch branches of `scanner.ts` only add a scan-level error
and a skip count, which no claim under verification depends on. -/
structure FsFile where
  path : String
  mtimeMs : Int
  size : Int
  lines : List JLine
deriving DecidableEq, Repr

/-- The service's `Map<string, ProcessedFile>`, as an insertion-ordered
association list. -/
abbrev SvcMap := List (String × ProcessedFile)

/-- JS `Map.get`. -/
def svcGet (m : SvcMap) (k : String) : Option ProcessedFile :=
  (List.find? (fun p => p.1 == k) m).map (fun p => p.2)

/-- JS `Map.set`: replace in place when the key exists, else append. -/
def svcSet (m : SvcMap) (k : String) (v : ProcessedFile) : SvcMap :=
  match m with
  | [] => [(k, v)]
  | (k', v') :: rest =>
      if k' = k then (k, v) :: rest else (k', v') :: svcSet rest k v

/-- Structure `ScanResult` of `types.ts`. -/
structure ScanResult where
  entries : List ParsedLogEntry
  filesProcessed : Nat
  filesSkipped : Nat
  entriesFound : Nat
  errors : List ScanError
  configDirsUsed : List String
deriving DecidableEq, Repr

/-- Mutable accumulators of a scan loop (`entries`, `errors`,
`filesProcessed`, `filesSkipped`). -/
structure ScanAcc where
  entries : List ParsedLogEntry
  errors : List ScanError
  filesProcessed : Nat
  filesSkipped : Nat
deriving DecidableEq, Repr

/-- Per-file body of the `scanModifiedFiles` loop (`scanner.ts` lines
406–457): skip when the stored watermark matches the live mtime/size;
parse from the stored line offset when a positive line-count watermark
exists; otherwise parse the whole content. -/
def scanModifiedStep (dateParse : String → Option Int)
    (configDirs : List String) (processedFiles : SvcMap)
    (acc : ScanAcc) (f : FsFile) : ScanAcc :=
  let processed := svcGet processedFiles f.path
  match processed with
  | some p =>
      if f.mtimeMs ≤ p.lastModifiedAt ∧ p.lastSize = f.size then
        { acc with filesSkipped := acc.filesSkipped + 1 }
      else
        let projectPath := extractProjectPath f.path configDirs
        if p.lastLineCount > 0 then
          let r := parseJSONLContentFromLine dateParse f.lines f.path
            projectPath f.mtimeMs p.lastLineCount
          { acc with
            entries := acc.entries ++ r.entries
            errors := acc.errors ++ r.errors
            filesProcessed := acc.filesProcessed + 1 }
        else
          let r := parseJSONLContent dateParse f.lines f.path projectPath
            f.mtimeMs
          { acc with
            entries := acc.entries ++ r.entries
            errors := acc.errors ++ r.errors
            filesProcessed := acc.filesProcessed + 1 }
  | none =>
      let projectPath := extractProjectPath f.path configDirs
      let r := parseJSONLContent dateParse f.lines f.path projectPath
        f.mtimeMs
      { acc with
        entries := acc.entries ++ r.entries
        errors := acc.errors ++ r.errors
        filesProcessed := acc.filesProcessed + 1 }

/-- Function `scanModifiedFiles` of `scanner.ts` (lines 380–471). `filesIn` models
`findJSONLFiles` applied to a projects directory. -/
def scanModifiedFiles (dateParse : String → Option Int)
    (configDirs : List String) (filesIn : String → List FsFile)
    (processedFiles : SvcMap) : ScanResult :=
  if configDirs.isEmpty then
    { entries := [], filesProcessed := 0, filesSkipped := 0,
      entriesFound := 0, errors := [], configDirsUsed := [] }
  else
    let acc := configDirs.foldl
      (fun acc configDir =>
        (filesIn (getProjectsDir configDir)).foldl
          (scanModifiedStep dateParse configDirs processedFiles) acc)
      { entries := [], errors := [], filesProcessed := 0, filesSkipped := 0 }
    { entries := acc.entries, filesProcessed := acc.filesProcessed,
      filesSkipped := acc.filesSkipped, entriesFound := acc.entries.length,
      errors := acc.errors, configDirsUsed := configDirs }

/-- Per-file body of the `scanAllJSONLFiles` loop (`scanner.ts` lines
325–354): always a full parse. -/
def scanAllStep (dateParse : String → Option Int)
    (configDirs : List String) (acc : ScanAcc) (f : FsFile) : ScanAcc :=
  let projectPath := extractProjectPath f.path configDirs
  let r := parseJSONLContent dateParse f.lines f.path projectPath f.mtimeMs
  { acc with
    entries := acc.entries ++ r.entries
    errors := acc.errors ++ r.errors
    filesProcessed := acc.filesProcessed + 1 }

/-- Function `scanAllJSONLFiles` of `scanner.ts` (lines 297–372). -/
def scanAllJSONLFiles (dateParse : String → Option Int)
    (configDirs : List String) (filesIn : String → List FsFile) :
    ScanResult :=
  if configDirs.isEmpty then
    { entries := [], filesProcessed := 0, filesSkipped := 0,
      entriesFound := 0, errors := [], configDirsUsed := [] }
  else
    let acc := configDirs.foldl
      (fun acc configDir =>
        (filesIn (getProjectsDir configDir)).foldl
          (scanAllStep dateParse configDirs) acc)
      { entries := [], errors := [], filesProcessed := 0, filesSkipped := 0 }
    { entries := acc.entries, filesProcessed := acc.filesProcessed,
      filesSkipped := acc.filesSkipped, entriesFound := acc.entries.length,
      errors := acc.errors, configDirsUsed := configDirs }

/-! ### Ingestion service (`service.ts`) -/

/-- One step of the `fileEntries` grouping of
`updateProcessedFilesFromScan`: bump the count stored under a key of an
insertion-ordered `Map<string, number>`. -/
def bumpCount : List (String × Nat) → String → List (String × Nat)
  | [], k => [(k, 1)]
  | (k', n) :: rest, k =>
      if k' = k then (k', n + 1) :: rest else (k', n) :: bumpCount rest k

/-- The `fileEntries` map of `updateProcessedFilesFromScan` (`service.ts`
lines 230–234): entry counts per file path, in first-seen order. -/
def groupCount (entries : List ParsedLogEntry) : List (String × Nat) :=
  entries.foldl (fun m e => bumpCount m e.filePath) []

/-- The per-file update loop of `updateProcessedFilesFromScan`
(`service.ts` lines 237–252), with `getFileMetadata` and `Date.now()`
passed as oracles. Returns the updated in-memory map together with the
list of `markFileProcessed` calls, in order. -/
def updateLoop (getMeta : String → Option FileMetadata) (now : Int) :
    List (String × Nat) → SvcMap → SvcMap × List ProcessedFile
  | [], st => (st, [])
  | (filePath, entryCount) :: rest, st =>
      match getMeta filePath with
      | none => updateLoop getMeta now rest st
      | some metadata =>
          let existing := svcGet st filePath
          let processedFile : ProcessedFile := {
            filePath := filePath
            lastModifiedAt := metadata.modifiedAt
            lastSize := metadata.size
            lastLineCount :=
              ((existing.map ProcessedFile.lastLineCount).getD 0) + entryCount
            processedAt := now }
          let r := updateLoop getMeta now rest (svcSet st filePath processedFile)
          (r.1, processedFile :: r.2)

/-- Function `updateProcessedFilesFromScan` of `service.ts` (lines 228–253). -/
def updateProcessedFilesFromScan (getMeta : String → Option FileMetadata)
    (now : Int) (st : SvcMap) (result : ScanResult) :
    SvcMap × List ProcessedFile :=
  updateLoop getMeta now (groupCount result.entries) st

/-- Observable outcome of one service scan: the `processedFiles` map after
the call, the `markFileProcessed` calls it issued, and the returned scan
result or the propagated persistence failure. -/
structure IngestOutcome where
  state : SvcMap
  marks : List ProcessedFile
  result : Except String ScanResult
deriving Repr

/-- Function `scanAndImport` of `service.ts` (lines 94–108): full scan, then (when
non-empty) `saveEntries` — whose outcome is the oracle `save`; a save
failure propagates before any watermark is touched — then
`updateProcessedFilesFromScan`. -/
def scanAndImport (dateParse : String → Option Int)
    (configDirs : List String) (filesIn : String → List FsFile)
    (getMeta : String → Option FileMetadata) (now : Int)
    (save : List ParsedLogEntry → Except String Unit)
    (st : SvcMap) : IngestOutcome :=
  let result := scanAllJSONLFiles dateParse configDirs filesIn
  if result.entries.length > 0 then
    match save result.entries with
    | .error e => { state := st, marks := [], result := .error e }
    | .ok _ =>
        let u := updateProcessedFilesFromScan getMeta now st result
        { state := u.1, marks := u.2, result := .ok result }
  else
    let u := updateProcessedFilesFromScan getMeta now st result
    { state := u.1, marks := u.2, result := .ok result }

/-- Function `incrementalScan` of `service.ts` (lines 113–127): like
`scanAndImport` but scanning only files whose metadata changed, parsing
from the stored watermark. -/
def incrementalScan (dateParse : String → Option Int)
    (configDirs : List String) (filesIn : String → List FsFile)
    (getMeta : String → Option FileMetadata) (now : Int)
    (save : List ParsedLogEntry → Except String Unit)
    (st : SvcMap) : IngestOutcome :=
  let result := scanModifiedFiles dateParse configDirs filesIn st
  if result.entries.length > 0 then
    match save result.entries with
    | .error e => { state := st, marks := [], result := .error e }
    | .ok _ =>
        let u := updateProcessedFilesFromScan getMeta now st result
        { state := u.1, marks := u.2, result := .ok result }
  else
    let u := updateProcessedFilesFromScan getMeta now st result
    { state := u.1, marks := u.2, result := .ok result }

/-! ### Repository (`claude-logs.repository.ts`) -/

/-- Modelled from the spec: the `claude_log_entries` table's schema
(`CREATE TABLE`, not under `src/`) makes `uuid` the conflict target of
`INSERT OR REPLACE` — spec §3: "persisted via upsert keyed by `uuid`",
"`uuid` … the sole dedup key". One `INSERT OR REPLACE` therefore replaces
the row with the same `uuid` in place, else appends. -/
def insertOrReplaceEntry : List ParsedLogEntry → ParsedLogEntry →
    List ParsedLogEntry
  | [], e => [e]
  | r :: rest, e =>
      if r.uuid = e.uuid then e :: rest else r :: insertOrReplaceEntry rest e

/-- The successful path of `saveEntries` of `claude-logs.repository.ts`
(lines 89–125): empty batches return at once, otherwise every entry is
upserted in order inside one transaction. -/
def saveEntries (store : List ParsedLogEntry)
    (entries : List ParsedLogEntry) : List ParsedLogEntry :=
  if entries.isEmpty then store
  else entries.foldl insertOrReplaceEntry store

/-- Function `saveEntries` with per-statement failure: `fails` is an oracle for
"this `insertStmt.run` throws". Modelled from the spec for the transaction
wrapper (`bun:sqlite`'s `db.transaction`, not under `src/`): a thrown
statement rolls the whole batch back, so on failure the caller's store is
unchanged (spec §4.6: "all-or-nothing batch upsert"). -/
def saveEntriesTx (store : List ParsedLogEntry)
    (entries : List ParsedLogEntry) (fails : ParsedLogEntry → Bool) :
    Except String (List ParsedLogEntry) :=
  if entries.isEmpty then .ok store
  else if entries.any fails then .error "transaction rolled back"
  else .ok (entries.foldl insertOrReplaceEntry store)

/-- The `BillingBlockUsage` row of `getBillingBlockUsage`, kept numeric: the
source converts `blockStart`/`blockEnd` to ISO-8601 strings at the very
end through the strictly monotone injective `toISOString`, which preserves
both the boundary values and the ordering under verification. -/
structure BillingBlockUsage where
  blockStart : Int
  blockEnd : Int
  inputTokens : Int
  outputTokens : Int
  cacheCreationInputTokens : Int
  cacheReadInputTokens : Int
  totalTokens : Int
  costUsd : Rat
  requestCount : Nat
deriving DecidableEq, Repr

/-- 5 hours in milliseconds (`claude-logs.repository.ts` line 264). -/
def blockSize : Int := 5 * 60 * 60 * 1000

/-- SQLite's integer `/` truncates toward zero: the bucket index
`timestamp / blockSize` of `getBillingBlockUsage`. -/
def blockIndex (t : Int) : Int := t.tdiv blockSize

/-- Expression `(timestamp / blockSize) * blockSize` of `getBillingBlockUsage`. -/
def blockStartOf (t : Int) : Int := blockIndex t * blockSize

/-- Expression `((timestamp / blockSize) + 1) * blockSize` of `getBillingBlockUsage`. -/
def blockEndOf (t : Int) : Int := (blockIndex t + 1) * blockSize

/-- JS truthiness of the optional numeric filters of
`getBillingBlockUsage`: `if (startTime)` is false for `undefined` and `0`. -/
def jsTruthyInt : Option Int → Bool
  | some v => !(v == 0)
  | none => false

/-- Function `getBillingBlockUsage` of `claude-logs.repository.ts` (lines 259–298)
over the stored rows: filter by the optional time bounds, group by
`blockStart`, aggregate each group, `ORDER BY blockStart DESC`. -/
def getBillingBlockUsage (rows : List ParsedLogEntry)
    (startTime endTime : Option Int) : List BillingBlockUsage :=
  let filtered := rows.filter (fun e =>
    (if jsTruthyInt startTime then startTime.getD 0 ≤ e.timestamp else true)
    && (if jsTruthyInt endTime then e.timestamp ≤ endTime.getD 0 else true))
  let starts := (filtered.map (fun e => blockStartOf e.timestamp)).dedup
  let sorted := starts.insertionSort (fun a b => b ≤ a)
  sorted.map (fun b =>
    let grp := filtered.filter (fun e => blockStartOf e.timestamp == b)
    { blockStart := b
      blockEnd := b + blockSize
      inputTokens := (grp.map ParsedLogEntry.inputTokens).sum
      outputTokens := (grp.map ParsedLogEntry.outputTokens).sum
      cacheCreationInputTokens :=
        (grp.map ParsedLogEntry.cacheCreationInputTokens).sum
      cacheReadInputTokens := (grp.map ParsedLogEntry.cacheReadInputTokens).sum
      totalTokens := (grp.map ParsedLogEntry.totalTokens).sum
      costUsd := (grp.map ParsedLogEntry.costUsd).sum
      requestCount := grp.length })

/-! ### Supporting lemmas: parser -/

/-- The token-sum invariant of a normalized entry. -/
def TokenInv (e : ParsedLogEntry) : Prop :=
  e.totalTokens = e.inputTokens + e.outputTokens +
    e.cacheCreationInputTokens + e.cacheReadInputTokens

theorem parseLine_tokenInv (dateParse : String → Option Int) (line : JLine)
    (filePath projectPath : String) (fileModifiedAt : Int)
    (lineNumber : Option Nat) (e : ParsedLogEntry)
    (h : (parseLine dateParse line filePath projectPath fileModifiedAt
      lineNumber).1 = some e) : TokenInv e := by
  cases line with
  | blank => simp [parseLine] at h
  | badJson msg => simp [parseLine] at h
  | json raw =>
      simp only [parseLine] at h
      split at h
      · simp at h
      · split at h
        · simp at h
        · simp only [Option.some.injEq] at h
          subst h
          rfl

theorem parseLine_filePath (dateParse : String → Option Int) (line : JLine)
    (filePath projectPath : String) (fileModifiedAt : Int)
    (lineNumber : Option Nat) (e : ParsedLogEntry)
    (h : (parseLine dateParse line filePath projectPath fileModifiedAt
      lineNumber).1 = some e) : e.filePath = filePath := by
  cases line with
  | blank => simp [parseLine] at h
  | badJson msg => simp [parseLine] at h
  | json raw =>
      simp only [parseLine] at h
      split at h
      · simp at h
      · split at h
        · simp at h
        · simp only [Option.some.injEq] at h
          subst h
          rfl

/-- Whether a line yields a valid entry; by `parseLine_isSome_eq` this
depends only on the line and the date oracle. -/
def lineValid (dateParse : String → Option Int) (l : JLine) : Bool :=
  ((parseLine dateParse l "" "" 0 none).1).isSome

theorem parseLine_isSome_eq (dateParse : String → Option Int) (l : JLine)
    (filePath projectPath : String) (fileModifiedAt : Int)
    (lineNumber : Option Nat) :
    ((parseLine dateParse l filePath projectPath fileModifiedAt
      lineNumber).1).isSome = lineValid dateParse l := by
  cases l with
  | blank => rfl
  | badJson msg => rfl
  | json raw =>
      simp only [parseLine, lineValid]
      split
      · rfl
      · cases dateParse raw.timestamp <;> rfl

theorem parseLoop_entries_length (dateParse : String → Option Int)
    (filePath projectPath : String) (fileModifiedAt : Int)
    (ls : List JLine) (i : Nat) :
    (parseLoop dateParse filePath projectPath fileModifiedAt ls i).1.length
      = ls.countP (lineValid dateParse) := by
  induction ls generalizing i with
  | nil => rfl
  | cons l ls ih =>
      simp only [parseLoop, List.countP_cons]
      have hs := parseLine_isSome_eq dateParse l filePath projectPath
        fileModifiedAt (some (i + 1))
      cases h : (parseLine dateParse l filePath projectPath fileModifiedAt
        (some (i + 1))).1 with
      | none =>
          rw [h] at hs
          simp only [Option.isSome_none] at hs
          simp [← hs, ih (i + 1)]
      | some e =>
          rw [h] at hs
          simp only [Option.isSome_some] at hs
          simp [← hs, ih (i + 1)]

theorem parseLoop_mem (dateParse : String → Option Int)
    (filePath projectPath : String) (fileModifiedAt : Int)
    (ls : List JLine) (i : Nat) (x : ParsedLogEntry)
    (hx : x ∈ (parseLoop dateParse filePath projectPath fileModifiedAt
      ls i).1) :
    ∃ l ∈ ls, ∃ k, (parseLine dateParse l filePath projectPath
      fileModifiedAt (some k)).1 = some x := by
  induction ls generalizing i with
  | nil => simp [parseLoop] at hx
  | cons l ls ih =>
      simp only [parseLoop] at hx
      cases h : (parseLine dateParse l filePath projectPath fileModifiedAt
        (some (i + 1))).1 with
      | none =>
          rw [h] at hx
          obtain ⟨l', hl', k, hk⟩ := ih (i + 1) hx
          exact ⟨l', List.mem_cons_of_mem _ hl', k, hk⟩
      | some e =>
          rw [h] at hx
          rcases List.mem_cons.mp hx with rfl | hx'
          · exact ⟨l, List.mem_cons_self _ _, i + 1, h⟩
          · obtain ⟨l', hl', k, hk⟩ := ih (i + 1) hx'
            exact ⟨l', List.mem_cons_of_mem _ hl', k, hk⟩

theorem parseLoop_all_blank (dateParse : String → Option Int)
    (filePath projectPath : String) (fileModifiedAt : Int)
    (ls : List JLine) (i : Nat) (hb : ∀ l ∈ ls, l = JLine.blank) :
    (parseLoop dateParse filePath projectPath fileModifiedAt ls i).1 = [] := by
  induction ls generalizing i with
  | nil => rfl
  | cons l ls ih =>
      have hl : l = JLine.blank := hb l (List.mem_cons_self _ _)
      subst hl
      simp only [parseLoop, parseLine]
      exact ih (i + 1) (fun l' hl' => hb l' (List.mem_cons_of_mem _ hl'))

theorem scanModifiedStep_entries_shape (dateParse : String → Option Int)
    (configDirs : List String) (pm : SvcMap) (acc : ScanAcc) (f : FsFile) :
    ∃ ext, (scanModifiedStep dateParse configDirs pm acc f).entries
        = acc.entries ++ ext
      ∧ ∀ x ∈ ext, TokenInv x ∧ x.filePath = f.path := by
  unfold scanModifiedStep
  cases svcGet pm f.path with
  | none =>
      refine ⟨(parseJSONLContent dateParse f.lines f.path
        (extractProjectPath f.path configDirs) f.mtimeMs).entries, rfl,
        fun x hx => ?_⟩
      obtain ⟨l, _, k, hk⟩ := parseLoop_mem dateParse f.path _ f.mtimeMs
        f.lines 0 x hx
      exact ⟨parseLine_tokenInv _ _ _ _ _ _ _ hk,
        parseLine_filePath _ _ _ _ _ _ _ hk⟩
  | some p =>
      by_cases hskip : f.mtimeMs ≤ p.lastModifiedAt ∧ p.lastSize = f.size
      · simp only [if_pos hskip]
        exact ⟨[], by simp, by simp⟩
      · simp only [if_neg hskip]
        by_cases hlc : p.lastLineCount > 0
        · simp only [if_pos hlc]
          refine ⟨_, rfl, fun x hx => ?_⟩
          obtain ⟨l, _, k, hk⟩ := parseLoop_mem dateParse f.path _ f.mtimeMs
            (f.lines.drop p.lastLineCount) p.lastLineCount x hx
          exact ⟨parseLine_tokenInv _ _ _ _ _ _ _ hk,
            parseLine_filePath _ _ _ _ _ _ _ hk⟩
        · simp only [if_neg hlc]
          refine ⟨_, rfl, fun x hx => ?_⟩
          obtain ⟨l, _, k, hk⟩ := parseLoop_mem dateParse f.path _ f.mtimeMs
            f.lines 0 x hx
          exact ⟨parseLine_tokenInv _ _ _ _ _ _ _ hk,
            parseLine_filePath _ _ _ _ _ _ _ hk⟩

theorem scanAllStep_entries_shape (dateParse : String → Option Int)
    (configDirs : List String) (acc : ScanAcc) (f : FsFile) :
    ∃ ext, (scanAllStep dateParse configDirs acc f).entries
        = acc.entries ++ ext
      ∧ ∀ x ∈ ext, TokenInv x ∧ x.filePath = f.path := by
  unfold scanAllStep
  refine ⟨_, rfl, fun x hx => ?_⟩
  obtain ⟨l, _, k, hk⟩ := parseLoop_mem dateParse f.path _ f.mtimeMs
    f.lines 0 x hx
  exact ⟨parseLine_tokenInv _ _ _ _ _ _ _ hk,
    parseLine_filePath _ _ _ _ _ _ _ hk⟩

/-- A scan-loop body that only appends token-sound entries. -/
def ExtendingStep {β : Type} (step : ScanAcc → β → ScanAcc) : Prop :=
  ∀ acc b, ∃ ext, (step acc b).entries = acc.entries ++ ext
    ∧ ∀ x ∈ ext, TokenInv x

theorem foldl_extendingStep {β : Type} (step : ScanAcc → β → ScanAcc)
    (hstep : ExtendingStep step) (bs : List β) (acc : ScanAcc) :
    ∃ ext, (bs.foldl step acc).entries = acc.entries ++ ext
      ∧ ∀ x ∈ ext, TokenInv x := by
  induction bs generalizing acc with
  | nil => exact ⟨[], by simp, by simp⟩
  | cons b bs ih =>
      obtain ⟨e1, he1, hi1⟩ := hstep acc b
      obtain ⟨e2, he2, hi2⟩ := ih (step acc b)
      refine ⟨e1 ++ e2, ?_, ?_⟩
      · simp only [List.foldl_cons, he2, he1, List.append_assoc]
      · intro x hx
        rcases List.mem_append.mp hx with h | h
        · exact hi1 x h
        · exact hi2 x h

theorem scanModifiedStep_extending (dateParse : String → Option Int)
    (configDirs : List String) (pm : SvcMap) :
    ExtendingStep (scanModifiedStep dateParse configDirs pm) := by
  intro acc f
  obtain ⟨ext, heq, hext⟩ := scanModifiedStep_entries_shape dateParse
    configDirs pm acc f
  exact ⟨ext, heq, fun x hx => (hext x hx).1⟩

theorem scanAllStep_extending (dateParse : String → Option Int)
    (configDirs : List String) :
    ExtendingStep (scanAllStep dateParse configDirs) := by
  intro acc f
  obtain ⟨ext, heq, hext⟩ := scanAllStep_entries_shape dateParse
    configDirs acc f
  exact ⟨ext, heq, fun x hx => (hext x hx).1⟩

theorem scanModifiedFiles_tokenInv (dateParse : String → Option Int)
    (configDirs : List String) (filesIn : String → List FsFile)
    (pm : SvcMap) (x : ParsedLogEntry)
    (hx : x ∈ (scanModifiedFiles dateParse configDirs filesIn pm).entries) :
    TokenInv x := by
  unfold scanModifiedFiles at hx
  split at hx
  · simp at hx
  · have houter : ExtendingStep (fun acc configDir =>
        (filesIn (getProjectsDir configDir)).foldl
          (scanModifiedStep dateParse configDirs pm) acc) := by
      intro acc cd
      exact foldl_extendingStep _ (scanModifiedStep_extending dateParse
        configDirs pm) (filesIn (getProjectsDir cd)) acc
    obtain ⟨ext, heq, hext⟩ := foldl_extendingStep _ houter configDirs
      { entries := [], errors := [], filesProcessed := 0, filesSkipped := 0 }
    simp only [heq, List.nil_append] at hx
    exact hext x hx

theorem scanAllJSONLFiles_tokenInv (dateParse : String → Option Int)
    (configDirs : List String) (filesIn : String → List FsFile)
    (x : ParsedLogEntry)
    (hx : x ∈ (scanAllJSONLFiles dateParse configDirs filesIn).entries) :
    TokenInv x := by
  unfold scanAllJSONLFiles at hx
  split at hx
  · simp at hx
  · have houter : ExtendingStep (fun acc configDir =>
        (filesIn (getProjectsDir configDir)).foldl
          (scanAllStep dateParse configDirs) acc) := by
      intro acc cd
      exact foldl_extendingStep _ (scanAllStep_extending dateParse
        configDirs) (filesIn (getProjectsDir cd)) acc
    obtain ⟨ext, heq, hext⟩ := foldl_extendingStep _ houter configDirs
      { entries := [], errors := [], filesProcessed := 0, filesSkipped := 0 }
    simp only [heq, List.nil_append] at hx
    exact hext x hx

/-! ### Claim C4 -/

/-- C4: For every line successfully parsed by `parseLine` — and hence
for every entry passed to `saveEntries`, those being exactly the entries of
the scan results — `totalTokens` equals
`inputTokens + outputTokens + cacheCreationInputTokens + cacheReadInputTokens`,
each field defaulting to 0 when absent from the source JSON; `totalTokens`
is computed by the parser (`RawLogEntry` carries no such field to read). -/
theorem totalTokens_is_sum :
    (∀ (dp : String → Option Int) (l : JLine) (fp pp : String) (fm : Int)
      (k : Option Nat) (e : ParsedLogEntry),
      (parseLine dp l fp pp fm k).1 = some e → TokenInv e)
    ∧ (∀ (dp : String → Option Int) (cds : List String)
        (filesIn : String → List FsFile) (pm : SvcMap) (x : ParsedLogEntry),
        x ∈ (scanModifiedFiles dp cds filesIn pm).entries → TokenInv x)
    ∧ (∀ (dp : String → Option Int) (cds : List String)
        (filesIn : String → List FsFile) (x : ParsedLogEntry),
        x ∈ (scanAllJSONLFiles dp cds filesIn).entries → TokenInv x) :=
  ⟨fun dp l fp pp fm k e h => parseLine_tokenInv dp l fp pp fm k e h,
   fun dp cds filesIn pm x hx =>
     scanModifiedFiles_tokenInv dp cds filesIn pm x hx,
   fun dp cds filesIn x hx => scanAllJSONLFiles_tokenInv dp cds filesIn x hx⟩

/-- The entry produced by the concrete input of C4's witness. -/
def c4Entry : ParsedLogEntry :=
  { uuid := "a", sessionId := "s", projectPath := "p", timestamp := 5,
    role := "unknown", model := none, inputTokens := 1, outputTokens := 2,
    cacheCreationInputTokens := 0, cacheReadInputTokens := 0,
    totalTokens := 3, costUsd := 0, gitBranch := none, cwd := none,
    filePath := "f", fileModifiedAt := 0 }

/-- The raw record of C4's witness. -/
def c4Raw : RawLogEntry where
  uuid := "a"
  sessionId := "s"
  timestamp := "T"
  message := some { usage := some { input_tokens := some 1, output_tokens := some 2 } }

theorem totalTokens_is_sum_witness :
    (parseLine (fun _ => some 5) (JLine.json c4Raw) "f" "p" 0 none).1
      = some c4Entry
    ∧ TokenInv c4Entry :=
  ⟨by decide,
   totalTokens_is_sum.1 (fun _ => some 5) (JLine.json c4Raw)
     "f" "p" 0 none c4Entry (by decide)⟩

/-! ### Claim C6 -/

/-- C6 counterexample: The full-blob variant `parseJSONLContent` does
not return the file's total line count: two contents with different line
counts (1 line vs 3 lines, both all-blank and hence with zero valid
entries) produce identical outputs, so no component of its result can be
the line count. Only `parseJSONLContentFromLine` returns `lineCount`. -/
theorem parseJSONLContent_no_lineCount :
    parseJSONLContent (fun _ => none) [JLine.blank] "f" "p" 0
      = parseJSONLContent (fun _ => none)
          [JLine.blank, JLine.blank, JLine.blank] "f" "p" 0
    ∧ ([JLine.blank] : List JLine).length
        ≠ ([JLine.blank, JLine.blank, JLine.blank] : List JLine).length :=
  ⟨by decide, by decide⟩

/-- C6 amended: Of the two batch parse variants, only the
from-line-offset variant `parseJSONLContentFromLine` returns the file's
total current line count, and it does so for every content — in particular
for all-blank content that produces zero valid entries; the full-blob
variant `parseJSONLContent` returns only entries and errors. -/
theorem parseJSONLContentFromLine_lineCount (dp : String → Option Int)
    (content : List JLine) (fp pp : String) (fm : Int) (s : Nat) :
    (parseJSONLContentFromLine dp content fp pp fm s).lineCount
      = content.length
    ∧ ((∀ l ∈ content, l = JLine.blank) →
        (parseJSONLContentFromLine dp content fp pp fm s).entries = []) := by
  constructor
  · rfl
  · intro hb
    show (parseLoop dp fp pp fm (content.drop s) s).1 = []
    exact parseLoop_all_blank dp fp pp fm _ s
      (fun l hl => hb l (List.mem_of_mem_drop hl))

theorem parseJSONLContentFromLine_lineCount_witness :
    (parseJSONLContentFromLine (fun _ => none)
        [JLine.blank, JLine.blank] "f" "p" 0 0).lineCount = 2
    ∧ (parseJSONLContentFromLine (fun _ => none)
        [JLine.blank, JLine.blank] "f" "p" 0 0).entries = [] :=
  ⟨(parseJSONLContentFromLine_lineCount (fun _ => none)
      [JLine.blank, JLine.blank] "f" "p" 0 0).1,
   (parseJSONLContentFromLine_lineCount (fun _ => none)
      [JLine.blank, JLine.blank] "f" "p" 0 0).2 (by decide)⟩

/-! ### Claim C5 -/

theorem string_append_ne_empty (s t : String) (h : s.data ≠ []) :
    s ++ t ≠ "" := by
  intro he
  apply h
  have h1 : s.data ++ t.data = ([] : List Char) := by
    rw [← String.data_append, he]
  exact (List.append_eq_nil.mp h1).1

/-- Date oracle of C5's concrete malformed-line-isolation scenario. -/
def c5dp : String → Option Int := fun s => if s = "T" then some 100 else none

/-- First valid record of C5's scenario. -/
def c5raw1 : RawLogEntry := { uuid := "a", sessionId := "s", timestamp := "T" }

/-- Second valid record of C5's scenario. -/
def c5raw2 : RawLogEntry := { uuid := "b", sessionId := "s", timestamp := "T" }

/-- C5: `parseLine` never throws past its boundary: every non-blank
line that is not valid JSON, lacks a non-empty `uuid`/`sessionId`/
`timestamp`, or has an unparseable timestamp yields `(null, ScanError)`
carrying the file path, the 1-based line number and a non-empty
human-readable cause; and a bad line does not affect its siblings — the
content `[valid, not-JSON, valid]` parsed by `parseJSONLContent` yields
exactly 2 entries and exactly 1 `ScanError`, referencing line 2. -/
theorem parseLine_error_isolation (dp : String → Option Int) (l : JLine)
    (fp pp : String) (fm : Int) (k : Nat)
    (hbad : (∃ msg, l = JLine.badJson msg)
      ∨ (∃ raw, l = JLine.json raw
          ∧ (raw.uuid = "" ∨ raw.sessionId = "" ∨ raw.timestamp = ""
            ∨ dp raw.timestamp = none))) :
    (∃ err : ScanError,
      parseLine dp l fp pp fm (some k) = (none, some err)
      ∧ err.filePath = fp ∧ err.line = some k ∧ err.error ≠ "")
    ∧ (parseJSONLContent c5dp [JLine.json c5raw1, JLine.badJson "oops",
        JLine.json c5raw2] "f" "p" 7).entries.length = 2
    ∧ (parseJSONLContent c5dp [JLine.json c5raw1, JLine.badJson "oops",
        JLine.json c5raw2] "f" "p" 7).errors.map ScanError.line
        = [some 2] := by
  refine ⟨?_, by decide, by decide⟩
  rcases hbad with ⟨msg, rfl⟩ | ⟨raw, rfl, hraw⟩
  · exact ⟨⟨fp, some k, "JSON parse error: " ++ msg⟩, rfl, rfl, rfl,
      string_append_ne_empty _ _ (by decide)⟩
  · by_cases hc : raw.uuid = "" ∨ raw.sessionId = "" ∨ raw.timestamp = ""
    · refine ⟨⟨fp, some k,
        "Missing required fields (uuid, sessionId, or timestamp)"⟩,
        ?_, rfl, rfl, ?_⟩
      · simp only [parseLine, if_pos hc]
      · show ("Missing required fields (uuid, sessionId, or timestamp)"
          : String) ≠ ""
        decide
    · have hdp : dp raw.timestamp = none := by
        rcases hraw with h | h | h | h
        · exact absurd (Or.inl h) hc
        · exact absurd (Or.inr (Or.inl h)) hc
        · exact absurd (Or.inr (Or.inr h)) hc
        · exact h
      refine ⟨⟨fp, some k, "Invalid timestamp: " ++ raw.timestamp⟩,
        ?_, rfl, rfl, string_append_ne_empty _ _ (by decide)⟩
      simp only [parseLine, if_neg hc, hdp]

theorem parseLine_error_isolation_witness :
    (∃ err : ScanError,
      parseLine c5dp (JLine.badJson "x") "f" "p" 0 (some 1)
        = (none, some err)
      ∧ err.filePath = "f" ∧ err.line = some 1 ∧ err.error ≠ "")
    ∧ (parseJSONLContent c5dp [JLine.json c5raw1, JLine.badJson "oops",
        JLine.json c5raw2] "f" "p" 7).entries.length = 2
    ∧ (parseJSONLContent c5dp [JLine.json c5raw1, JLine.badJson "oops",
        JLine.json c5raw2] "f" "p" 7).errors.map ScanError.line
        = [some 2] :=
  parseLine_error_isolation c5dp (JLine.badJson "x") "f" "p" 0 1
    (Or.inl ⟨"x", rfl⟩)

/-! ### Claim C9 -/

/-- The override portion of `getClaudeConfigDirs`: the trimmed,
non-empty, existing paths of the comma-separated `CLAUDE_CONFIG_DIR`
value, in order. -/
def envSelected (env : Option String) (ex : String → Bool) : List String :=
  match env with
  | some envDirs =>
      if envDirs = "" then []
      else ((jsSplit ',' envDirs).map jsTrim).filter
        (fun p => (!(p == "")) && ex p)
  | none => []

theorem append_fallback_shape (base : List String) (ex : String → Bool)
    (p : String) :
    ∃ rest, (if ex p && !(base.contains p) then base ++ [p] else base)
        = base ++ rest
      ∧ ∀ d ∈ rest, ex d = true := by
  by_cases h : (ex p && !(base.contains p)) = true
  · refine ⟨[p], by rw [if_pos h], fun d hd => ?_⟩
    rw [List.mem_singleton.mp hd]
    simp only [Bool.and_eq_true] at h
    exact h.1
  · exact ⟨[], by rw [if_neg h, List.append_nil], by simp⟩

theorem getClaudeConfigDirs_shape (env : Option String) (home : String)
    (ex : String → Bool) :
    ∃ rest, getClaudeConfigDirs env home ex = envSelected env ex ++ rest
      ∧ ∀ d ∈ rest, ex d = true := by
  obtain ⟨r1, hr1, hx1⟩ := append_fallback_shape (envSelected env ex) ex
    (home ++ "/.claude")
  have hL : getClaudeConfigDirs env home ex =
      (if ex (home ++ "/.config/claude")
          && !((if ex (home ++ "/.claude")
                  && !((envSelected env ex).contains (home ++ "/.claude"))
                then envSelected env ex ++ [home ++ "/.claude"]
                else envSelected env ex).contains (home ++ "/.config/claude"))
        then (if ex (home ++ "/.claude")
                && !((envSelected env ex).contains (home ++ "/.claude"))
              then envSelected env ex ++ [home ++ "/.claude"]
              else envSelected env ex) ++ [home ++ "/.config/claude"]
        else (if ex (home ++ "/.claude")
                && !((envSelected env ex).contains (home ++ "/.claude"))
              then envSelected env ex ++ [home ++ "/.claude"]
              else envSelected env ex)) := rfl
  rw [hr1] at hL
  obtain ⟨r2, hr2, hx2⟩ := append_fallback_shape (envSelected env ex ++ r1)
    ex (home ++ "/.config/claude")
  rw [hr2] at hL
  refine ⟨r1 ++ r2, by rw [hL, List.append_assoc], fun d hd => ?_⟩
  rcases List.mem_append.mp hd with h | h
  · exact hx1 d h
  · exact hx2 d h

theorem mem_fallback_self (base : List String) (ex : String → Bool)
    (p : String) (hex : ex p = true) :
    p ∈ (if ex p && !(base.contains p) then base ++ [p] else base) := by
  by_cases hc : base.contains p = true
  · have : p ∈ base := List.mem_of_elem_eq_true hc
    split
    · exact List.mem_append_left _ this
    · exact this
  · rw [if_pos (by simp only [hex, Bool.true_and, Bool.not_eq_true',
      Bool.not_eq_true]; exact Bool.not_eq_true _ ▸ hc)]
    exact List.mem_append_right _ (List.mem_singleton_self p)

theorem mem_fallback_mono (base : List String) (ex : String → Bool)
    (p q : String) (h : q ∈ base) :
    q ∈ (if ex p && !(base.contains p) then base ++ [p] else base) := by
  split
  · exact List.mem_append_left _ h
  · exact h

/-- Function `getClaudeConfigDirs` in terms of `envSelected`, with the two
fallback steps exposed. -/
theorem getClaudeConfigDirs_steps (env : Option String) (home : String)
    (ex : String → Bool) :
    getClaudeConfigDirs env home ex =
      (let dirs1 := if ex (home ++ "/.claude")
            && !((envSelected env ex).contains (home ++ "/.claude"))
          then envSelected env ex ++ [home ++ "/.claude"]
          else envSelected env ex
       if ex (home ++ "/.config/claude")
          && !(dirs1.contains (home ++ "/.config/claude"))
        then dirs1 ++ [home ++ "/.config/claude"] else dirs1) := rfl

theorem envSelected_mem_exists (env : Option String) (ex : String → Bool)
    (d : String) (hd : d ∈ envSelected env ex) : ex d = true := by
  unfold envSelected at hd
  split at hd
  · split at hd
    · cases hd
    · have := List.of_mem_filter hd
      simp only [Bool.and_eq_true] at this
      exact this.2
  · cases hd

/-- C9 counterexample: The claim's "de-duplicated list" fails: with
the override `CLAUDE_CONFIG_DIR = "/a,/a"` where `/a` exists, the code
returns `["/a", "/a"]` — duplicates inside the override list are kept
verbatim (only the two fallback paths are checked against the list). -/
theorem getClaudeConfigDirs_counterexample :
    getClaudeConfigDirs (some "/a,/a") "/h" (fun s => s == "/a")
      = ["/a", "/a"]
    ∧ ¬ (["/a", "/a"] : List String).Nodup :=
  ⟨by decide, by decide⟩

/-- C9 amended: `getClaudeConfigDirs` returns, in order, the
trimmed existing override paths first (duplicates inside the override
preserved), then each of the two conventional fallback locations when it
exists and is not already listed; every returned directory exists, a
fallback that exists is always in the result (in particular when the
override yields zero usable paths), and the function is total (it never
fails; non-existent directories are silently omitted). -/
theorem getClaudeConfigDirs_amended (env : Option String) (home : String)
    (ex : String → Bool) :
    (∀ d ∈ getClaudeConfigDirs env home ex, ex d = true)
    ∧ (ex (home ++ "/.claude") = true →
        (home ++ "/.claude") ∈ getClaudeConfigDirs env home ex)
    ∧ (ex (home ++ "/.config/claude") = true →
        (home ++ "/.config/claude") ∈ getClaudeConfigDirs env home ex)
    ∧ (getClaudeConfigDirs env home ex).take (envSelected env ex).length
        = envSelected env ex := by
  obtain ⟨rest, hshape, hrest⟩ := getClaudeConfigDirs_shape env home ex
  refine ⟨?_, ?_, ?_, ?_⟩
  · intro d hd
    rw [hshape] at hd
    rcases List.mem_append.mp hd with h | h
    · exact envSelected_mem_exists env ex d h
    · exact hrest d h
  · intro hex
    rw [getClaudeConfigDirs_steps]
    exact mem_fallback_mono _ ex _ _ (mem_fallback_self _ ex _ hex)
  · intro hex
    rw [getClaudeConfigDirs_steps]
    exact mem_fallback_self _ ex _ hex
  · rw [hshape]
    exact List.take_left _ _

theorem getClaudeConfigDirs_amended_witness :
    ("/h" ++ "/.claude") ∈ getClaudeConfigDirs (some "/x") "/h"
      (fun s => s == "/x" || s == "/h/.claude")
    ∧ (getClaudeConfigDirs (some "/x") "/h"
        (fun s => s == "/x" || s == "/h/.claude")).take
          (envSelected (some "/x")
            (fun s => s == "/x" || s == "/h/.claude")).length
      = envSelected (some "/x") (fun s => s == "/x" || s == "/h/.claude") :=
  ⟨(getClaudeConfigDirs_amended (some "/x") "/h"
      (fun s => s == "/x" || s == "/h/.claude")).2.1 (by decide),
   (getClaudeConfigDirs_amended (some "/x") "/h"
      (fun s => s == "/x" || s == "/h/.claude")).2.2.2⟩

/-! ### Claim C7 -/

theorem insertOrReplaceEntry_find_self (s : List ParsedLogEntry)
    (e : ParsedLogEntry) :
    List.find? (fun r => r.uuid == e.uuid) (insertOrReplaceEntry s e)
      = some e := by
  induction s with
  | nil => simp [insertOrReplaceEntry, List.find?]
  | cons r rest ih =>
      unfold insertOrReplaceEntry
      by_cases h : r.uuid = e.uuid
      · rw [if_pos h]
        simp [List.find?]
      · rw [if_neg h]
        rw [List.find?_cons_of_neg]
        · exact ih
        · simp [h]

theorem insertOrReplaceEntry_uuids (s : List ParsedLogEntry)
    (e : ParsedLogEntry) :
    (insertOrReplaceEntry s e).map ParsedLogEntry.uuid
      = if e.uuid ∈ s.map ParsedLogEntry.uuid
        then s.map ParsedLogEntry.uuid
        else s.map ParsedLogEntry.uuid ++ [e.uuid] := by
  induction s with
  | nil => simp [insertOrReplaceEntry]
  | cons r rest ih =>
      unfold insertOrReplaceEntry
      by_cases h : r.uuid = e.uuid
      · rw [if_pos h]
        simp [h]
      · rw [if_neg h]
        simp only [List.map_cons, List.mem_cons]
        rw [ih]
        by_cases hm : e.uuid ∈ rest.map ParsedLogEntry.uuid
        · rw [if_pos hm, if_pos (Or.inr hm)]
        · rw [if_neg hm, if_neg (by
            intro hor
            rcases hor with h' | h'
            · exact h h'.symm
            · exact hm h')]
          simp

theorem insertOrReplaceEntry_nodup (s : List ParsedLogEntry)
    (e : ParsedLogEntry)
    (h : (s.map ParsedLogEntry.uuid).Nodup) :
    ((insertOrReplaceEntry s e).map ParsedLogEntry.uuid).Nodup := by
  rw [insertOrReplaceEntry_uuids]
  by_cases hm : e.uuid ∈ s.map ParsedLogEntry.uuid
  · rw [if_pos hm]
    exact h
  · rw [if_neg hm]
    rw [← List.concat_eq_append]
    exact List.Nodup.concat hm h

/-- C7: Saving entries with the same `uuid` twice (via `saveEntries`,
second call after the first) leaves exactly one stored record for that
`uuid`, whose fields are those of the second save; within one
`saveEntries` call the batch is all-or-nothing (the transaction applies
every upsert on success and nothing on failure). -/
theorem saveEntries_dedup_upsert (store : List ParsedLogEntry)
    (e1 e2 : ParsedLogEntry)
    (hnd : (store.map ParsedLogEntry.uuid).Nodup)
    (hu : e1.uuid = e2.uuid) :
    (List.find? (fun r => r.uuid == e1.uuid)
        (saveEntries (saveEntries store [e1]) [e2]) = some e2
      ∧ ((saveEntries (saveEntries store [e1]) [e2]).filter
          (fun r => r.uuid == e1.uuid)).length = 1)
    ∧ (∀ entries fails, entries ≠ [] → entries.any fails = true →
        saveEntriesTx store entries fails = .error "transaction rolled back")
    ∧ (∀ entries fails s', saveEntriesTx store entries fails = .ok s' →
        s' = saveEntries store entries) := by
  have hsave : saveEntries (saveEntries store [e1]) [e2]
      = insertOrReplaceEntry (insertOrReplaceEntry store e1) e2 := rfl
  refine ⟨⟨?_, ?_⟩, ?_, ?_⟩
  · rw [hsave, hu]
    exact insertOrReplaceEntry_find_self _ e2
  · rw [hsave, hu]
    have hnd2 : ((insertOrReplaceEntry (insertOrReplaceEntry store e1)
        e2).map ParsedLogEntry.uuid).Nodup :=
      insertOrReplaceEntry_nodup _ e2 (insertOrReplaceEntry_nodup _ e1 hnd)
    have hmem : e2 ∈ insertOrReplaceEntry (insertOrReplaceEntry store e1)
        e2 :=
      List.mem_of_find?_eq_some (insertOrReplaceEntry_find_self _ e2)
    have hcount : (List.filter (fun r => r.uuid == e2.uuid)
          (insertOrReplaceEntry (insertOrReplaceEntry store e1) e2)).length
        = ((insertOrReplaceEntry (insertOrReplaceEntry store e1) e2).map
            ParsedLogEntry.uuid).count e2.uuid := by
      rw [← List.countP_eq_length_filter, List.count, List.countP_map]
      rfl
    rw [hcount]
    have hle := List.nodup_iff_count_le_one.mp hnd2 e2.uuid
    have hge : 0 < ((insertOrReplaceEntry (insertOrReplaceEntry store e1)
        e2).map ParsedLogEntry.uuid).count e2.uuid :=
      List.count_pos_iff.mpr (List.mem_map_of_mem _ hmem)
    omega
  · intro entries fails hne hany
    unfold saveEntriesTx
    rw [if_neg (by simp [hne]), if_pos hany]
  · intro entries fails s' hok
    unfold saveEntriesTx at hok
    by_cases hne : entries.isEmpty = true
    · rw [if_pos hne] at hok
      cases hok
      unfold saveEntries
      rw [if_pos hne]
    · rw [if_neg hne] at hok
      by_cases hany : entries.any fails = true
      · rw [if_pos hany] at hok
        cases hok
      · rw [if_neg hany] at hok
        cases hok
        unfold saveEntries
        rw [if_neg hne]

/-- First entry of C7's witness. -/
def c7e1 : ParsedLogEntry :=
  { uuid := "u1", sessionId := "s1", projectPath := "p", timestamp := 1,
    role := "user", model := none, inputTokens := 0, outputTokens := 0,
    cacheCreationInputTokens := 0, cacheReadInputTokens := 0,
    totalTokens := 0, costUsd := 1/100, gitBranch := none, cwd := none,
    filePath := "f", fileModifiedAt := 0 }

/-- Second entry of C7's witness: same `uuid`, different `costUsd`. -/
def c7e2 : ParsedLogEntry :=
  { uuid := "u1", sessionId := "s1", projectPath := "p", timestamp := 1,
    role := "user", model := none, inputTokens := 0, outputTokens := 0,
    cacheCreationInputTokens := 0, cacheReadInputTokens := 0,
    totalTokens := 0, costUsd := 2/100, gitBranch := none, cwd := none,
    filePath := "f", fileModifiedAt := 0 }

theorem saveEntries_dedup_upsert_witness :
    List.find? (fun r => r.uuid == c7e1.uuid)
        (saveEntries (saveEntries [] [c7e1]) [c7e2]) = some c7e2
    ∧ ((saveEntries (saveEntries [] [c7e1]) [c7e2]).filter
        (fun r => r.uuid == c7e1.uuid)).length = 1 :=
  (saveEntries_dedup_upsert [] c7e1 c7e2 (by decide) (by decide)).1

/-! ### Claim C1 -/

theorem svcGet_svcSet_self (m : SvcMap) (k : String) (v : ProcessedFile) :
    svcGet (svcSet m k v) k = some v := by
  induction m with
  | nil => simp [svcSet, svcGet, List.find?]
  | cons p rest ih =>
      unfold svcSet
      by_cases h : p.1 = k
      · rw [if_pos h]
        simp [svcGet, List.find?]
      · rw [if_neg h]
        unfold svcGet at ih ⊢
        rw [List.find?_cons_of_neg _ (by simp [h])]
        exact ih

theorem svcGet_svcSet_ne (m : SvcMap) (k k' : String) (v : ProcessedFile)
    (hne : k' ≠ k) : svcGet (svcSet m k v) k' = svcGet m k' := by
  induction m with
  | nil =>
      show svcGet [(k, v)] k' = none
      unfold svcGet
      rw [List.find?_cons_of_neg _
        (by simp only [beq_iff_eq]; exact fun hh => hne hh.symm)]
      rfl
  | cons p rest ih =>
      unfold svcSet
      by_cases h : p.1 = k
      · rw [if_pos h]
        unfold svcGet
        rw [List.find?_cons_of_neg _
            (by simp only [beq_iff_eq]; exact fun hh => hne hh.symm),
          List.find?_cons_of_neg _
            (by simp only [beq_iff_eq, h]; exact fun hh => hne hh.symm)]
      · rw [if_neg h]
        unfold svcGet at ih ⊢
        by_cases hp : p.1 = k'
        · rw [List.find?_cons_of_pos _ (by simp [hp]),
            List.find?_cons_of_pos _ (by simp [hp])]
        · rw [List.find?_cons_of_neg _ (by simp [hp]),
            List.find?_cons_of_neg _ (by simp [hp])]
          exact ih

/-- Count stored under a key of the `fileEntries` association list. -/
def cntOf (m : List (String × Nat)) (k : String) : Nat :=
  ((List.find? (fun p => p.1 == k) m).map (fun p => p.2)).getD 0

theorem bumpCount_cnt_self (m : List (String × Nat)) (k : String) :
    cntOf (bumpCount m k) k = cntOf m k + 1 := by
  induction m with
  | nil => simp [bumpCount, cntOf, List.find?]
  | cons p rest ih =>
      unfold bumpCount
      by_cases h : p.1 = k
      · rw [if_pos h]
        unfold cntOf
        rw [List.find?_cons_of_pos _ (by simp [h]),
          List.find?_cons_of_pos _ (by simp [h])]
        rfl
      · rw [if_neg h]
        unfold cntOf at ih ⊢
        rw [List.find?_cons_of_neg _ (by simp [h]),
          List.find?_cons_of_neg _ (by simp [h])]
        exact ih

theorem bumpCount_cnt_ne (m : List (String × Nat)) (k k' : String)
    (hne : k' ≠ k) : cntOf (bumpCount m k) k' = cntOf m k' := by
  induction m with
  | nil =>
      show cntOf [(k, 1)] k' = cntOf [] k'
      unfold cntOf
      rw [List.find?_cons_of_neg _
        (by simp only [beq_iff_eq]; exact fun hh => hne hh.symm)]
  | cons p rest ih =>
      unfold bumpCount
      by_cases h : p.1 = k
      · rw [if_pos h]
        unfold cntOf
        rw [List.find?_cons_of_neg _
            (by simp only [beq_iff_eq, h]; exact fun hh => hne hh.symm),
          List.find?_cons_of_neg _
            (by simp only [beq_iff_eq, h]; exact fun hh => hne hh.symm)]
      · rw [if_neg h]
        unfold cntOf at ih ⊢
        by_cases hp : p.1 = k'
        · rw [List.find?_cons_of_pos _ (by simp [hp]),
            List.find?_cons_of_pos _ (by simp [hp])]
        · rw [List.find?_cons_of_neg _ (by simp [hp]),
            List.find?_cons_of_neg _ (by simp [hp])]
          exact ih

theorem bumpCount_keys (m : List (String × Nat)) (k : String) :
    (bumpCount m k).map Prod.fst
      = if k ∈ m.map Prod.fst then m.map Prod.fst
        else m.map Prod.fst ++ [k] := by
  induction m with
  | nil => simp [bumpCount]
  | cons p rest ih =>
      unfold bumpCount
      by_cases h : p.1 = k
      · rw [if_pos h]
        simp [h]
      · rw [if_neg h]
        simp only [List.map_cons, List.mem_cons]
        rw [ih]
        by_cases hm : k ∈ rest.map Prod.fst
        · rw [if_pos hm, if_pos (Or.inr hm)]
        · rw [if_neg hm, if_neg (by
            intro hor
            rcases hor with h' | h'
            · exact h h'.symm
            · exact hm h')]
          simp

theorem bumpCount_keys_nodup (m : List (String × Nat)) (k : String)
    (h : (m.map Prod.fst).Nodup) : ((bumpCount m k).map Prod.fst).Nodup := by
  rw [bumpCount_keys]
  by_cases hm : k ∈ m.map Prod.fst
  · rw [if_pos hm]
    exact h
  · rw [if_neg hm]
    rw [← List.concat_eq_append]
    exact List.Nodup.concat hm h

theorem groupCount_foldl_cnt (es : List ParsedLogEntry)
    (m : List (String × Nat)) (k : String) :
    cntOf (es.foldl (fun m e => bumpCount m e.filePath) m) k
      = cntOf m k + es.countP (fun e => e.filePath == k) := by
  induction es generalizing m with
  | nil => simp
  | cons e es ih =>
      simp only [List.foldl_cons, List.countP_cons]
      rw [ih]
      by_cases h : e.filePath = k
      · rw [h, bumpCount_cnt_self]
        simp
        omega
      · rw [bumpCount_cnt_ne _ _ _ (fun hk => h hk.symm)]
        simp [h]

theorem groupCount_foldl_nodup (es : List ParsedLogEntry)
    (m : List (String × Nat)) (h : (m.map Prod.fst).Nodup) :
    (((es.foldl (fun m e => bumpCount m e.filePath) m)).map
      Prod.fst).Nodup := by
  induction es generalizing m with
  | nil => exact h
  | cons e es ih =>
      simp only [List.foldl_cons]
      exact ih _ (bumpCount_keys_nodup m e.filePath h)

theorem groupCount_cnt (es : List ParsedLogEntry) (k : String) :
    cntOf (groupCount es) k = es.countP (fun e => e.filePath == k) := by
  unfold groupCount
  rw [groupCount_foldl_cnt]
  show 0 + _ = _
  omega

theorem groupCount_nodup (es : List ParsedLogEntry) :
    ((groupCount es).map Prod.fst).Nodup :=
  groupCount_foldl_nodup es [] (by simp)

theorem cnt_pos_find (m : List (String × Nat)) (k : String)
    (h : 0 < cntOf m k) :
    List.find? (fun p => p.1 == k) m = some (k, cntOf m k) := by
  cases hf : List.find? (fun p => p.1 == k) m with
  | none =>
      exfalso
      unfold cntOf at h
      rw [hf] at h
      simp at h
  | some p =>
      have hp := List.find?_some hf
      simp only [beq_iff_eq] at hp
      have h2 : cntOf m k = p.2 := by
        unfold cntOf
        rw [hf]
        rfl
      rw [h2, ← hp]

theorem updateLoop_not_mem (gm : String → Option FileMetadata) (now : Int)
    (l : List (String × Nat)) (st : SvcMap) (fp : String)
    (h : fp ∉ l.map Prod.fst) :
    svcGet (updateLoop gm now l st).1 fp = svcGet st fp := by
  induction l generalizing st with
  | nil => rfl
  | cons q rest ih =>
      obtain ⟨qk, qn⟩ := q
      have hne : fp ≠ qk := by
        intro he
        exact h (by rw [he]; exact List.mem_cons_self _ _)
      have hrest : fp ∉ rest.map Prod.fst := by
        intro hr
        exact h (List.mem_cons_of_mem _ hr)
      unfold updateLoop
      cases hgm : gm qk with
      | none => exact ih st hrest
      | some meta =>
          show svcGet (updateLoop gm now rest (svcSet st qk _)).1 fp = _
          rw [ih _ hrest, svcGet_svcSet_ne _ _ _ _ hne]

/-- The `ProcessedFile` record built by `updateProcessedFilesFromScan` for
a file with `prior` previously recorded lines and `n` newly found
entries. -/
def advancedRecord (fp : String) (m : FileMetadata) (prior n : Nat)
    (now : Int) : ProcessedFile :=
  { filePath := fp, lastModifiedAt := m.modifiedAt, lastSize := m.size,
    lastLineCount := prior + n, processedAt := now }

theorem updateLoop_advances (gm : String → Option FileMetadata) (now : Int)
    (l : List (String × Nat)) (st : SvcMap) (fp : String) (n : Nat)
    (m : FileMetadata)
    (hnd : (l.map Prod.fst).Nodup)
    (hfind : List.find? (fun p => p.1 == fp) l = some (fp, n))
    (hm : gm fp = some m) :
    svcGet (updateLoop gm now l st).1 fp
      = some (advancedRecord fp m
          (((svcGet st fp).map ProcessedFile.lastLineCount).getD 0) n now)
    ∧ advancedRecord fp m
        (((svcGet st fp).map ProcessedFile.lastLineCount).getD 0) n now
      ∈ (updateLoop gm now l st).2 := by
  induction l generalizing st with
  | nil => simp [List.find?] at hfind
  | cons q rest ih =>
      obtain ⟨qk, qn⟩ := q
      by_cases hq : qk = fp
      · subst hq
        rw [List.find?_cons_of_pos _ (by simp)] at hfind
        have hqn : qn = n := by
          simpa using congrArg (fun o => (o.map Prod.snd).getD 0) hfind
        subst hqn
        simp only [List.map_cons, List.nodup_cons] at hnd
        unfold updateLoop
        rw [hm]
        constructor
        · show svcGet (updateLoop gm now rest (svcSet st qk _)).1 qk = _
          rw [updateLoop_not_mem gm now rest _ qk hnd.1,
            svcGet_svcSet_self]
          rfl
        · exact List.mem_cons_self _ _
      · have hne : fp ≠ qk := fun he => hq he.symm
        rw [List.find?_cons_of_neg _ (by simp [hq])] at hfind
        simp only [List.map_cons, List.nodup_cons] at hnd
        unfold updateLoop
        cases hgm : gm qk with
        | none => exact ih st hnd.2 hfind
        | some meta =>
            have hih := ih (svcSet st qk
              { filePath := qk, lastModifiedAt := meta.modifiedAt,
                lastSize := meta.size,
                lastLineCount := ((
                  (svcGet st qk).map ProcessedFile.lastLineCount).getD 0)
                  + qn,
                processedAt := now }) hnd.2 hfind
            rw [svcGet_svcSet_ne _ _ _ _ hne] at hih
            exact ⟨hih.1, List.mem_cons_of_mem _ hih.2⟩

/-- Date oracle of C1's counterexample. -/
def c1dp : String → Option Int := fun _ => none

/-- C1's counterexample file: previously watermarked, now grown by one
trailing blank line, so the incremental scan processes it but finds zero
new entries. -/
def c1file : FsFile :=
  { path := "c/projects/p/a.jsonl", mtimeMs := 5, size := 10,
    lines := [JLine.blank] }

/-- C1's stale watermark for `c1file` (older mtime, smaller size). -/
def c1wm : ProcessedFile :=
  { filePath := "c/projects/p/a.jsonl", lastModifiedAt := 1, lastSize := 3,
    lastLineCount := 2, processedAt := 0 }

/-- C1's post-scan metadata oracle: stat of the grown file succeeds. -/
def c1meta : String → Option FileMetadata :=
  fun p => if p = "c/projects/p/a.jsonl" then some ⟨5, 10⟩ else none

/-- C1 counterexample: A watch-free incremental scan processes
`c1file` (`filesProcessed = 1`: its mtime/size changed) and finds zero new
entries; contrary to the claim, its `ProcessedFile` watermark is *not*
advanced — the in-memory map still holds the stale `c1wm`
(`lastModifiedAt = 1`, not the post-scan `5`) and no `markFileProcessed`
call happens, because `updateProcessedFilesFromScan` iterates only over
files that contributed at least one entry. -/
theorem incrementalScan_zero_entry_no_advance :
    (incrementalScan c1dp ["c"] (fun _ => [c1file]) c1meta 99
        (fun _ => Except.ok ()) [(c1file.path, c1wm)]).state
      = [(c1file.path, c1wm)]
    ∧ (incrementalScan c1dp ["c"] (fun _ => [c1file]) c1meta 99
        (fun _ => Except.ok ()) [(c1file.path, c1wm)]).marks = []
    ∧ (incrementalScan c1dp ["c"] (fun _ => [c1file]) c1meta 99
        (fun _ => Except.ok ()) [(c1file.path, c1wm)]).result.toOption.map
          ScanResult.filesProcessed = some 1
    ∧ c1meta c1file.path = some ⟨5, 10⟩
    ∧ c1wm.lastModifiedAt ≠ 5 :=
  ⟨by decide, by decide, by decide, by decide, by decide⟩

/-- C1 amended: After a scan, for every file for which the scan
found at least one new entry and whose post-scan `getFileMetadata` call
succeeds, `updateProcessedFilesFromScan` (invoked by all three triggers:
startup full scan, periodic incremental scan and watch-triggered scan)
advances that file's watermark to the post-scan mtime and size and to a
line count equal to the prior count plus the entries newly found for that
file, both in the in-memory map and via a `markFileProcessed` call; files
with zero new entries (and files whose post-scan stat fails) are left
untouched. -/
theorem updateProcessedFiles_advances (gm : String → Option FileMetadata)
    (now : Int) (st : SvcMap) (result : ScanResult) (fp : String)
    (m : FileMetadata)
    (hm : gm fp = some m)
    (hn : 0 < result.entries.countP (fun e => e.filePath == fp)) :
    svcGet (updateProcessedFilesFromScan gm now st result).1 fp
      = some (advancedRecord fp m
          (((svcGet st fp).map ProcessedFile.lastLineCount).getD 0)
          (result.entries.countP (fun e => e.filePath == fp)) now)
    ∧ advancedRecord fp m
        (((svcGet st fp).map ProcessedFile.lastLineCount).getD 0)
        (result.entries.countP (fun e => e.filePath == fp)) now
      ∈ (updateProcessedFilesFromScan gm now st result).2 := by
  have hcnt := groupCount_cnt result.entries fp
  have hfind := cnt_pos_find (groupCount result.entries) fp
    (by rw [hcnt]; exact hn)
  rw [hcnt] at hfind
  exact updateLoop_advances gm now _ st fp _ m
    (groupCount_nodup result.entries) hfind hm

/-- The scan result of C1's witness: one entry found in file `"f"`. -/
def c1Result : ScanResult :=
  { entries := [c4Entry], filesProcessed := 1, filesSkipped := 0,
    entriesFound := 1, errors := [], configDirsUsed := ["c"] }

theorem updateProcessedFiles_advances_witness :
    svcGet (updateProcessedFilesFromScan
        (fun p => if p = "f" then some ⟨7, 42⟩ else none) 99 [] c1Result).1
        "f"
      = some (advancedRecord "f" ⟨7, 42⟩
          (((svcGet ([] : SvcMap) "f").map
            ProcessedFile.lastLineCount).getD 0)
          (c1Result.entries.countP (fun e => e.filePath == "f")) 99)
    ∧ advancedRecord "f" ⟨7, 42⟩
        (((svcGet ([] : SvcMap) "f").map ProcessedFile.lastLineCount).getD 0)
        (c1Result.entries.countP (fun e => e.filePath == "f")) 99
      ∈ (updateProcessedFilesFromScan
          (fun p => if p = "f" then some ⟨7, 42⟩ else none) 99 []
          c1Result).2 :=
  updateProcessedFiles_advances
    (fun p => if p = "f" then some ⟨7, 42⟩ else none) 99 [] c1Result "f"
    ⟨7, 42⟩ (by decide) (by decide)

/-! ### Claim C2 -/

/-- C2: For a file previously scanned and watermarked at `N` lines
(`lastLineCount = N`, content `L` of length `N`), appending `M` lines that
each parse to a valid entry and re-running the incremental scan
(`scanModifiedFiles` with the stored `ProcessedFile` map, the file's
mtime/size having changed) yields a `ScanResult` with exactly `M` entries,
all attributed to that file — not `N + M`. -/
theorem scanModifiedFiles_incremental_exact (dp : String → Option Int)
    (cd : String) (filesIn : String → List FsFile) (pmap : SvcMap)
    (f : FsFile) (w : ProcessedFile) (L A : List JLine) (N M : Nat)
    (hfiles : filesIn (getProjectsDir cd) = [f])
    (hlines : f.lines = L ++ A)
    (hN : L.length = N)
    (hM : A.length = M)
    (hvalid : ∀ a ∈ A, lineValid dp a = true)
    (hw : svcGet pmap f.path = some w)
    (hwN : w.lastLineCount = N)
    (hchanged : ¬(f.mtimeMs ≤ w.lastModifiedAt ∧ w.lastSize = f.size)) :
    (scanModifiedFiles dp [cd] filesIn pmap).entries.length = M
    ∧ ∀ x ∈ (scanModifiedFiles dp [cd] filesIn pmap).entries,
        x.filePath = f.path := by
  have hent : (scanModifiedFiles dp [cd] filesIn pmap).entries
      = (scanModifiedStep dp [cd] pmap
          { entries := [], errors := [], filesProcessed := 0,
            filesSkipped := 0 } f).entries := by
    unfold scanModifiedFiles
    rw [if_neg (by simp)]
    simp [List.foldl, hfiles]
  obtain ⟨i, hAeq⟩ : ∃ i,
      (scanModifiedFiles dp [cd] filesIn pmap).entries
        = (parseLoop dp f.path (extractProjectPath f.path [cd])
            f.mtimeMs A i).1 := by
    by_cases hN0 : w.lastLineCount > 0
    · refine ⟨w.lastLineCount, ?_⟩
      rw [hent]
      unfold scanModifiedStep
      rw [hw]
      dsimp only
      rw [if_neg hchanged, if_pos hN0]
      show (parseJSONLContentFromLine dp f.lines f.path _ f.mtimeMs
        w.lastLineCount).entries = _
      unfold parseJSONLContentFromLine
      rw [hwN, hlines, ← hN, List.drop_left]
    · refine ⟨0, ?_⟩
      have hL : L = [] := by
        have : N = 0 := by omega
        exact List.length_eq_zero.mp (by rw [hN, this])
      rw [hent]
      unfold scanModifiedStep
      rw [hw]
      dsimp only
      rw [if_neg hchanged, if_neg hN0]
      show (parseJSONLContent dp f.lines f.path _ f.mtimeMs).entries = _
      unfold parseJSONLContent
      rw [hlines, hL, List.nil_append]
  constructor
  · rw [hAeq, parseLoop_entries_length, List.countP_eq_length.mpr hvalid,
      hM]
  · intro x hx
    rw [hAeq] at hx
    obtain ⟨l, _, k, hk⟩ := parseLoop_mem dp f.path _ f.mtimeMs A i x hx
    exact parseLine_filePath _ _ _ _ _ _ _ hk

/-- C2's witness file: one previously counted valid line, one appended. -/
def c2file : FsFile :=
  { path := "c/projects/p/a.jsonl", mtimeMs := 5, size := 20,
    lines := [JLine.json c5raw1, JLine.json c5raw2] }

/-- C2's witness watermark: 1 line already processed. -/
def c2wm : ProcessedFile :=
  { filePath := "c/projects/p/a.jsonl", lastModifiedAt := 1, lastSize := 10,
    lastLineCount := 1, processedAt := 0 }

theorem scanModifiedFiles_incremental_exact_witness :
    (scanModifiedFiles c5dp ["c"] (fun _ => [c2file])
        [(c2file.path, c2wm)]).entries.length = 1
    ∧ ∀ x ∈ (scanModifiedFiles c5dp ["c"] (fun _ => [c2file])
        [(c2file.path, c2wm)]).entries, x.filePath = c2file.path :=
  scanModifiedFiles_incremental_exact c5dp "c" (fun _ => [c2file])
    [(c2file.path, c2wm)] c2file c2wm [JLine.json c5raw1]
    [JLine.json c5raw2] 1 1 (by decide) (by decide) (by decide) (by decide)
    (by decide) (by decide) (by decide) (by decide)

/-! ### Claim C3 -/

/-- C3: If the batch write `saveEntries` fails, no `ProcessedFile`
watermark of that scan is advanced: for both `scanAndImport` and
`incrementalScan`, a failing save propagates the error, the in-memory map
is returned unchanged and no `markFileProcessed` call happens (so the
next scan retries the same data); conversely, in the success case
watermark updates (`marks`) are issued only once the save has returned
`ok` (or there was nothing to save). -/
theorem failed_save_preserves_watermarks (dp : String → Option Int)
    (cds : List String) (filesIn : String → List FsFile)
    (gm : String → Option FileMetadata) (now : Int) (st : SvcMap)
    (save : List ParsedLogEntry → Except String Unit) (e : String) :
    (save (scanAllJSONLFiles dp cds filesIn).entries = .error e →
      0 < (scanAllJSONLFiles dp cds filesIn).entries.length →
      scanAndImport dp cds filesIn gm now save st
        = { state := st, marks := [], result := .error e })
    ∧ (save (scanModifiedFiles dp cds filesIn st).entries = .error e →
        0 < (scanModifiedFiles dp cds filesIn st).entries.length →
        incrementalScan dp cds filesIn gm now save st
          = { state := st, marks := [], result := .error e })
    ∧ ((scanAndImport dp cds filesIn gm now save st).marks ≠ [] →
        (scanAllJSONLFiles dp cds filesIn).entries = []
        ∨ save (scanAllJSONLFiles dp cds filesIn).entries = .ok ())
    ∧ ((incrementalScan dp cds filesIn gm now save st).marks ≠ [] →
        (scanModifiedFiles dp cds filesIn st).entries = []
        ∨ save (scanModifiedFiles dp cds filesIn st).entries = .ok ()) := by
  refine ⟨?_, ?_, ?_, ?_⟩
  · intro herr hlen
    unfold scanAndImport
    rw [if_pos hlen, herr]
  · intro herr hlen
    unfold incrementalScan
    rw [if_pos hlen, herr]
  · intro hmarks
    by_cases hlen : 0 < (scanAllJSONLFiles dp cds filesIn).entries.length
    · right
      unfold scanAndImport at hmarks
      rw [if_pos hlen] at hmarks
      cases hsave : save (scanAllJSONLFiles dp cds filesIn).entries with
      | error e' =>
          rw [hsave] at hmarks
          simp at hmarks
      | ok u =>
          cases u
          rfl
    · left
      exact List.length_eq_zero.mp (by omega)
  · intro hmarks
    by_cases hlen :
        0 < (scanModifiedFiles dp cds filesIn st).entries.length
    · right
      unfold incrementalScan at hmarks
      rw [if_pos hlen] at hmarks
      cases hsave : save (scanModifiedFiles dp cds filesIn st).entries with
      | error e' =>
          rw [hsave] at hmarks
          simp at hmarks
      | ok u =>
          cases u
          rfl
    · left
      exact List.length_eq_zero.mp (by omega)

theorem failed_save_preserves_watermarks_witness :
    incrementalScan c5dp ["c"] (fun _ => [c2file]) c1meta 99
        (fun _ => Except.error "disk full") [(c2file.path, c2wm)]
      = { state := [(c2file.path, c2wm)], marks := [],
          result := Except.error "disk full" } :=
  (failed_save_preserves_watermarks c5dp ["c"] (fun _ => [c2file]) c1meta
    99 [(c2file.path, c2wm)] (fun _ => Except.error "disk full")
    "disk full").2.1 rfl (by decide)

/-! ### Claim C8 -/

theorem sorted_dedup_map_pairwise (l : List Int)
    (mk : Int → BillingBlockUsage) (hmk : ∀ b, (mk b).blockStart = b) :
    List.Pairwise (fun a b => b.blockStart < a.blockStart)
      ((l.dedup.insertionSort (fun a b => b ≤ a)).map mk) := by
  rw [List.pairwise_map]
  have hs : List.Sorted (fun a b : Int => b ≤ a)
      (l.dedup.insertionSort (fun a b => b ≤ a)) :=
    List.sorted_insertionSort _ _
  have hn : (l.dedup.insertionSort (fun a b : Int => b ≤ a)).Nodup :=
    (List.perm_insertionSort _ _).symm.nodup (List.nodup_dedup _)
  have hp := List.Pairwise.and hs hn
  refine hp.imp ?_
  intro a b h
  rw [hmk a, hmk b]
  exact lt_of_le_of_ne h.1 (fun he => h.2 he.symm)

theorem mem_sorted_dedup_map (l : List Int)
    (mk : Int → BillingBlockUsage) (hmk : ∀ b, (mk b).blockStart = b)
    (b : Int) (hb : b ∈ l) :
    b ∈ ((l.dedup.insertionSort (fun a b => b ≤ a)).map mk).map
      BillingBlockUsage.blockStart := by
  have h1 : b ∈ l.dedup := List.mem_dedup.mpr hb
  have h2 : b ∈ l.dedup.insertionSort (fun a b : Int => b ≤ a) :=
    (List.perm_insertionSort _ _).mem_iff.mpr h1
  have h3 := List.mem_map_of_mem mk h2
  have h4 := List.mem_map_of_mem BillingBlockUsage.blockStart h3
  rw [hmk b] at h4
  exact h4

/-- C8 counterexample: The claim's "t and t + 18,000,000 − 1 fall
in the same block" holds only at block boundaries: for the stored
timestamps `1` and `1 + 18,000,000 − 1 = 18,000,000`,
`getBillingBlockUsage` returns two distinct blocks (indices 0 and 1), not
one. -/
theorem billingBlocks_counterexample :
    blockIndex 1 ≠ blockIndex (1 + blockSize - 1)
    ∧ (getBillingBlockUsage [
        { uuid := "u1", sessionId := "s", projectPath := "p",
          timestamp := 1, role := "user", model := none, inputTokens := 0,
          outputTokens := 0, cacheCreationInputTokens := 0,
          cacheReadInputTokens := 0, totalTokens := 0, costUsd := 0,
          gitBranch := none, cwd := none, filePath := "f",
          fileModifiedAt := 0 },
        { uuid := "u2", sessionId := "s", projectPath := "p",
          timestamp := 1 + blockSize - 1, role := "user", model := none,
          inputTokens := 0, outputTokens := 0,
          cacheCreationInputTokens := 0, cacheReadInputTokens := 0,
          totalTokens := 0, costUsd := 0, gitBranch := none, cwd := none,
          filePath := "f", fileModifiedAt := 0 }] none none).length = 2 :=
  ⟨by decide, by decide⟩

/-- C8 amended: `getBillingBlockUsage` assigns a stored entry with
non-negative timestamp `t` to the billing block with index
`floor(t / 18,000,000)` (SQLite's truncating division, which equals floor
division for non-negative `t`); block start and end are exact multiples of
18,000,000 ms from the Unix epoch and bound `t`; `t + 18,000,000` always
falls in the next block, and `t` and `t + 18,000,000 − 1` fall in the same
block when `t` is a block boundary (a multiple of the block size) — not
for arbitrary `t`; the returned blocks are ordered newest-first. -/
theorem billingBlocks_amended :
    (∀ t : Int, 0 ≤ t →
      blockIndex t = t / blockSize
      ∧ blockStartOf t % blockSize = 0
      ∧ blockEndOf t = blockStartOf t + blockSize
      ∧ blockStartOf t ≤ t ∧ t < blockEndOf t
      ∧ blockIndex (t + blockSize) = blockIndex t + 1
      ∧ (blockSize ∣ t → blockIndex (t + blockSize - 1) = blockIndex t))
    ∧ (∀ (rows : List ParsedLogEntry) (s e : Option Int),
        List.Pairwise (fun a b => b.blockStart < a.blockStart)
          (getBillingBlockUsage rows s e))
    ∧ (∀ (rows : List ParsedLogEntry) (x : ParsedLogEntry), x ∈ rows →
        blockStartOf x.timestamp
          ∈ (getBillingBlockUsage rows none none).map
              BillingBlockUsage.blockStart) := by
  have hBpos : (0 : Int) < blockSize := by norm_num [blockSize]
  have hBne : (blockSize : Int) ≠ 0 := by omega
  refine ⟨?_, ?_, ?_⟩
  · intro t ht
    have htd : blockIndex t = t / blockSize :=
      Int.tdiv_eq_ediv ht (by omega)
    refine ⟨htd, ?_, ?_, ?_, ?_, ?_, ?_⟩
    · show blockIndex t * blockSize % blockSize = 0
      exact Int.mul_emod_left _ _
    · show (blockIndex t + 1) * blockSize = blockIndex t * blockSize
        + blockSize
      ring
    · show blockIndex t * blockSize ≤ t
      rw [htd]
      have h1 := Int.ediv_add_emod t blockSize
      have h2 := Int.emod_nonneg t hBne
      have h3 := Int.emod_lt_of_pos t hBpos
      nlinarith [h1, h2, h3]
    · show t < (blockIndex t + 1) * blockSize
      rw [htd]
      have h1 := Int.ediv_add_emod t blockSize
      have h2 := Int.emod_nonneg t hBne
      have h3 := Int.emod_lt_of_pos t hBpos
      nlinarith [h1, h2, h3]
    · show (t + blockSize).tdiv blockSize = t.tdiv blockSize + 1
      rw [Int.tdiv_eq_ediv (by omega) (by omega),
        Int.tdiv_eq_ediv ht (by omega)]
      have := Int.add_mul_ediv_right t 1 hBne
      simpa using this
    · rintro ⟨k, rfl⟩
      have hk : 0 ≤ k := by nlinarith
      show (blockSize * k + blockSize - 1).tdiv blockSize
        = (blockSize * k).tdiv blockSize
      rw [Int.tdiv_eq_ediv (by nlinarith) (by omega),
        Int.tdiv_eq_ediv (by nlinarith) (by omega)]
      have h1 : blockSize * k + blockSize - 1
          = (blockSize - 1) + blockSize * (k + 1) - blockSize := by ring
      have h2 : (blockSize * k + blockSize - 1) / blockSize
          = ((blockSize - 1) + blockSize * k) / blockSize := by
        congr 1
        ring
      rw [h2, Int.add_mul_ediv_left _ k hBne,
        Int.ediv_eq_zero_of_lt (by omega) (by omega),
        Int.mul_ediv_cancel_left k hBne]
      omega
  · intro rows s e
    exact sorted_dedup_map_pairwise _ _ (fun b => rfl)
  · intro rows x hx
    refine mem_sorted_dedup_map _ _ (fun b => rfl) _ ?_
    exact List.mem_map_of_mem _ (List.mem_filter.mpr ⟨hx, rfl⟩)

theorem billingBlocks_amended_witness :
    blockIndex (2 * blockSize) = 2 * blockSize / blockSize
    ∧ blockIndex (2 * blockSize + blockSize - 1)
        = blockIndex (2 * blockSize) :=
  ⟨(billingBlocks_amended.1 (2 * blockSize) (by decide)).1,
   (billingBlocks_amended.1 (2 * blockSize) (by decide)).2.2.2.2.2.2
     ⟨2, by decide⟩⟩

end BetterCcflare
